import Mathlib

/-!
Shallow embedding of the feed-ingestion pipeline in `scripts/fetch_feeds.mjs`
(feed normalization, stable ids, keyword filtering, deduplication, ranking,
output assembly), together with proofs settling the specification claims.

JavaScript strings are modelled as lists of UTF-16 code units (`charCodeAt`,
`slice`, `length` and the FNV hash all operate on code units).  Host
functionality that the script calls but does not define — `new URL`,
`Date.parse`, `toISOString`, the regular-expression engine behind `stripHtml`
and the tag rules — is passed to the embedded functions as explicit function
arguments, so every theorem quantifies over the host's behavior.
-/

/-- A JavaScript string: its sequence of UTF-16 code units. -/
abbrev JSStr := List Nat

/-- Code units of an ASCII literal appearing in the script. -/
def strU (s : String) : JSStr := s.data.map Char.toNat

/-- JS truthiness of a possibly-absent string value: `null`/`undefined`
and the empty string are falsy. -/
def truthy : Option JSStr → Bool
  | none => false
  | some s => !s.isEmpty

/-- JS `a || b` restricted to possibly-absent string values. -/
def jsOr (a b : Option JSStr) : Option JSStr := if truthy a then a else b

/-- White space as recognized by `trim`/`trimEnd` (the standard JS white-space
code points that can arise in this pipeline's text). -/
def isWs (c : Nat) : Bool :=
  c = 0x20 || c = 0x9 || c = 0xA || c = 0xD || c = 0xB || c = 0xC ||
  c = 0xA0 || c = 0x2028 || c = 0x2029 || c = 0xFEFF

/-- `String.prototype.trimStart`. -/
def jsTrimStart (s : JSStr) : JSStr := s.dropWhile isWs

/-- `String.prototype.trimEnd`. -/
def jsTrimEnd (s : JSStr) : JSStr := (s.reverse.dropWhile isWs).reverse

/-- `String.prototype.trim`. -/
def jsTrim (s : JSStr) : JSStr := jsTrimEnd (jsTrimStart s)

/-- `s.slice(0, e)` on code units; a negative `e` counts back from the end
(clamped at 0), as in JS. -/
def jsSlice0 (s : JSStr) (e : Int) : JSStr :=
  if e < 0 then s.take (s.length - (-e).toNat) else s.take e.toNat

/-- The three-code-unit literal the script appends on truncation: the file's
bytes decode to `U+00E2 U+20AC U+00A6` (a double-encoded ellipsis), so as a
JS string it has length 3. -/
def ellipsisMarker : JSStr := [0xE2, 0x20AC, 0xA6]

/-- `truncate(s, maxLen)` from fetch_feeds.mjs (line 23): trim, return as-is
when within the bound, otherwise slice to `maxLen - 1`, trim the end, and
append the marker literal. -/
def truncate (s : Option JSStr) (maxLen : Int := 260) : JSStr :=
  let t := jsTrim (s.getD [])
  if (t.length : Int) ≤ maxLen then t
  else jsTrimEnd (jsSlice0 t (maxLen - 1)) ++ ellipsisMarker

/-- One step of FNV-1a on a 32-bit accumulator: `h ^= c; h = imul(h, 0x01000193)`
(all JS 32-bit operations are computed here modulo `2 ^ 32`). -/
def fnv1aStep (h c : Nat) : Nat := (Nat.xor h c) * 0x01000193 % 2 ^ 32

/-- The FNV-1a accumulator over a string's code units (`charCodeAt`). -/
def fnv1aHash (s : JSStr) : Nat := s.foldl fnv1aStep 0x811c9dc5

/-- ASCII code unit of a lowercase hex digit. -/
def hexDigit (n : Nat) : Nat := if n < 10 then 0x30 + n else 0x61 + (n - 10)

/-- `h.toString(16).padStart(8, '0')` for `h < 2 ^ 32`: exactly eight hex
digits, most significant first. -/
def toHex8 (h : Nat) : JSStr :=
  (List.range 8).reverse.map fun i => hexDigit (h / 16 ^ i % 16)

/-- `fnv1a(str)` from fetch_feeds.mjs (line 30): the item-id hash as an
eight-character lowercase hex string. -/
def fnv1a (s : JSStr) : JSStr := toHex8 (fnv1aHash s)

/-- `toLowerCase` on one code unit, restricted to ASCII letters (the only
case mapping exercised by the script's keyword and tag matching). -/
def toLowerU (c : Nat) : Nat := if 0x41 ≤ c ∧ c ≤ 0x5A then c + 0x20 else c

/-- `String.prototype.toLowerCase` (ASCII range). -/
def toLowerStr (s : JSStr) : JSStr := s.map toLowerU

/-- Does `needle` occur at the very start of `hay`? -/
def atStart : JSStr → JSStr → Bool
  | [], _ => true
  | _ :: _, [] => false
  | c :: cs, d :: ds => c = d && atStart cs ds

/-- `hay.includes(needle)`: contiguous-substring test on code units. -/
def hasSub (hay needle : JSStr) : Bool :=
  match hay with
  | [] => needle.isEmpty
  | _ :: t => atStart needle hay || hasSub t needle

/-- `containsAny(haystack, needles)` from fetch_feeds.mjs (line 61): vacuously
true on an absent or empty needle list, otherwise a case-insensitive
substring test against any needle. -/
def containsAny (haystack : JSStr) (needles : Option (List JSStr)) : Bool :=
  match needles with
  | none => true
  | some ns =>
    if ns.isEmpty then true
    else ns.any fun n => hasSub (toLowerStr haystack) (toLowerStr n)

/-- `excludedByAny(haystack, excludes)` from fetch_feeds.mjs (line 67):
vacuously false on an absent or empty list, otherwise a case-insensitive
substring test against any exclude. -/
def excludedByAny (haystack : JSStr) (excludes : Option (List JSStr)) : Bool :=
  match excludes with
  | none => false
  | some ns =>
    if ns.isEmpty then false
    else ns.any fun n => hasSub (toLowerStr haystack) (toLowerStr n)

/-- A tag rule of `computeTags` (line 75): a tag name and the boolean outcome
of `re.test` on the (lowercased) candidate text; the regular-expression
engine itself is host functionality, so the test is carried as a function. -/
structure TagRule where
  tag : JSStr
  test : JSStr → Bool

/-- The nine tag names of the rule table in `computeTags`, in definition
order (lines 76–84). -/
def ruleTagNames : List JSStr :=
  [strU "Privacy", strU "Antitrust", strU "RTB", strU "Identity",
   strU "Measurement", strU "CTV", strU "Fraud", strU "AI", strU "Policy"]

/-- `computeTags(text)` from fetch_feeds.mjs (line 73): lowercase the text,
then walk the rules in order, pushing a rule's tag exactly when its test
fires. -/
def computeTags (rules : List TagRule) (text : JSStr) : List JSStr :=
  let t := toLowerStr text
  rules.foldl (fun tags r => if r.test t then tags ++ [r.tag] else tags) []

/-- The WHATWG `URL` object as the script manipulates it: an opaque
serialization prefix through the path, the query (null, or a list of
key/value search params), and the fragment (null, or its text — possibly
empty, since `http://a/x#` parses with an empty non-null fragment).
`new URL` itself is host functionality and is passed around as a parse
function, with `none` modelling the constructor throwing. -/
structure URLRec where
  base : JSStr
  query : Option (List (JSStr × JSStr))
  fragment : Option JSStr
deriving DecidableEq

/-- The `hash` getter of the WHATWG URL object: the empty string when the
fragment is null **or empty**, otherwise `#` followed by the fragment.
In particular it can never return a bare `#`. -/
def URLRec.hashGetter (u : URLRec) : JSStr :=
  match u.fragment with
  | none => []
  | some f => if f.isEmpty then [] else 0x23 :: f

/-- `k=v(&k=v)*` rendering of the search params. -/
def renderParams : List (JSStr × JSStr) → JSStr
  | [] => []
  | [(k, v)] => k ++ [0x3D] ++ v
  | (k, v) :: rest => k ++ [0x3D] ++ v ++ [0x26] ++ renderParams rest

/-- `u.toString()`: base, then `?query` when the query is non-null, then
`#fragment` when the fragment is non-null — an empty non-null fragment
still serializes as a trailing bare `#`. -/
def URLRec.render (u : URLRec) : JSStr :=
  u.base ++
    (match u.query with
     | none => []
     | some ps => [0x3F] ++ renderParams ps) ++
    (match u.fragment with
     | none => []
     | some f => 0x23 :: f)

/-- `cleanUrl(rawUrl, stripParams)` from fetch_feeds.mjs (line 47): `null` on
a falsy input; on a parse failure the raw string is returned unchanged; on
success every strip-parameter is deleted from the search params, an emptied
query is cleared, and the URL is re-serialized.  The `u.hash === '#'` check
compares the hash getter's value with `'#'`, which the getter never
produces, so its fragment-clearing assignment (`u.hash = ''` nulls the
fragment) is dead code. -/
def cleanUrl (parseURL : JSStr → Option URLRec) (rawUrl : Option JSStr)
    (stripParams : List JSStr) : Option JSStr :=
  match rawUrl with
  | none => none
  | some s =>
    if s.isEmpty then none
    else
      match parseURL s with
      | none => some s
      | some u0 =>
        let u1 : URLRec :=
          { u0 with query := u0.query.map (·.filter fun p => !stripParams.any (p.1 = ·)) }
        let u2 : URLRec :=
          if (match u1.query with | none => true | some ps => ps.isEmpty)
          then { u1 with query := none } else u1
        let u3 : URLRec :=
          if u2.hashGetter = [0x23] then { u2 with fragment := none } else u2
        some u3.render

/-- The query component `cleanUrl` leaves behind on a successful parse:
strip-params deleted, and the query dropped altogether when nothing (or
nothing non-stripped) remains. -/
def cleanedQuery (q : Option (List (JSStr × JSStr))) (stripParams : List JSStr) :
    Option (List (JSStr × JSStr)) :=
  match q.map (·.filter fun p => !stripParams.any (p.1 = ·)) with
  | none => none
  | some l => if l.isEmpty then none else some l

/-- The URL record `cleanUrl` serializes on a successful parse (the net
effect of the body of its `try` block): strip-params deleted, an emptied
query cleared, base untouched — and the fragment untouched, because the
bare-`#` check never fires against the real hash getter. -/
def cleanedRec (u0 : URLRec) (stripParams : List JSStr) : URLRec :=
  { base := u0.base
    query := cleanedQuery u0.query stripParams
    fragment := u0.fragment }

/-- One configured feed (`feeds.yml` entry as `main` consumes it); the
optional `keywords.include` / `keywords.exclude` lists are flattened, with
`none` for an absent list. -/
structure FeedDef where
  id : JSStr
  name : JSStr
  url : JSStr
  category : Option JSStr
  maxItemsPerFeed : Option Nat
  kwInclude : Option (List JSStr)
  kwExclude : Option (List JSStr)
deriving DecidableEq

/-- The run defaults block (`loadConfig`, line 104). -/
structure RunDefaults where
  maxItemsPerFeed : Nat
  maxTotalItems : Nat
  timeoutMs : Nat
  userAgent : JSStr
  stripUrlParams : List JSStr

/-- A raw parsed entry as `normalizeItem` reads it: every field is optional,
and an element of `links` is that element's `.url` property (`none` when the
element lacks one). -/
structure RawEntry where
  title : Option JSStr
  link : Option JSStr
  guid : Option JSStr
  links : Option (List (Option JSStr))
  isoDate : Option JSStr
  pubDate : Option JSStr
  published : Option JSStr
  date : Option JSStr
  updated : Option JSStr
  contentSnippet : Option JSStr
  summary : Option JSStr
  content : Option JSStr
  contentEncoded : Option JSStr
deriving DecidableEq

/-- A fully absent raw entry, for building concrete test entries. -/
def emptyEntry : RawEntry :=
  ⟨none, none, none, none, none, none, none, none, none, none, none, none, none⟩

/-- `Array.isArray(item.links) && item.links.length ? item.links[0]?.url : null`
(line 150). -/
def linksFirst (it : RawEntry) : Option JSStr :=
  match it.links with
  | some (u :: _) => u
  | _ => none

/-- `item.link || item.guid || (… links[0]?.url …)` (lines 147–150). -/
def resolveRawLink (it : RawEntry) : Option JSStr :=
  jsOr it.link (jsOr it.guid (linksFirst it))

/-- `safeIsoDate(maybeDate)` from fetch_feeds.mjs (line 40), with the host's
`Date.parse` (`none` for `NaN`) and `toISOString` passed in. -/
def safeIsoDate (pd : JSStr → Option Int) (iso : Int → JSStr)
    (maybeDate : Option JSStr) : Option JSStr :=
  if truthy maybeDate then
    match pd (maybeDate.getD []) with
    | none => none
    | some t => some (iso t)
  else none

/-- The published-date candidate chain of `normalizeItem` (lines 154–160):
`isoDate || pubDate || published || date || updated || null`. -/
def resolvePublished (pd : JSStr → Option Int) (iso : Int → JSStr)
    (it : RawEntry) : Option JSStr :=
  jsOr (safeIsoDate pd iso it.isoDate)
    (jsOr (safeIsoDate pd iso it.pubDate)
      (jsOr (safeIsoDate pd iso it.published)
        (jsOr (safeIsoDate pd iso it.date)
          (jsOr (safeIsoDate pd iso it.updated) none))))

/-- The summary candidate chain of `normalizeItem` (lines 162–167):
`contentSnippet || summary || content || content:encoded || ''`. -/
def resolveRawSummary (it : RawEntry) : JSStr :=
  (jsOr it.contentSnippet
    (jsOr it.summary
      (jsOr it.content
        (jsOr it.contentEncoded (some []))))).getD []

/-- The canonical item record `normalizeItem` returns (lines 177–187). -/
structure NormalizedItem where
  id : JSStr
  title : JSStr
  url : Option JSStr
  source : JSStr
  sourceId : JSStr
  category : JSStr
  tags : List JSStr
  published : JSStr
  summary : JSStr
deriving DecidableEq

/-- The id seed of `normalizeItem` (line 174):
`url || feedDef.id + '|' + title + '|' + (published || '')`. -/
def stableIdSeed (feedId title : JSStr) (url published : Option JSStr) : JSStr :=
  if truthy url then url.getD []
  else feedId ++ [0x7C] ++ title ++ [0x7C] ++ published.getD []

/-- `normalizeItem(feedDef, item, stripParams)` from fetch_feeds.mjs
(line 144).  Host functionality is passed in explicitly: `cleanText` is
`stripHtml` (the regex markup stripper of lines 12–21, whose internals no
claim depends on), `parseURL` is the `new URL` constructor, `pd`/`iso` are
`Date.parse`/`toISOString`, `rules` carries the tag-rule regex tests, and
`nowIso` is this call's `new Date().toISOString()`. -/
def normalizeItem (cleanText : JSStr → JSStr) (parseURL : JSStr → Option URLRec)
    (pd : JSStr → Option Int) (iso : Int → JSStr) (rules : List TagRule)
    (nowIso : JSStr) (feedDef : FeedDef) (item : RawEntry)
    (stripParams : List JSStr) : NormalizedItem :=
  let title0 := cleanText (item.title.getD [])
  let title := if title0.isEmpty then strU "(untitled)" else title0
  let url := cleanUrl parseURL (resolveRawLink item) stripParams
  let published := resolvePublished pd iso item
  let summary := truncate (some (cleanText (resolveRawSummary item))) 280
  let combinedText := title ++ [0x20] ++ summary
  let tags := computeTags rules combinedText
  let id := fnv1a (stableIdSeed feedDef.id title url published)
  { id := id
    title := title
    url := url
    source := feedDef.name
    sourceId := feedDef.id
    category := (jsOr feedDef.category (some (strU "Uncategorized"))).getD []
    tags := tags
    published := (jsOr published (some nowIso)).getD []
    summary := summary }

/-- The include-list guard of `main` (line 218):
`include && include.length > 0 && !containsAny(text, include)`.
`none` models `feedDef.keywords?.include || null` being `null`. -/
def includeDrop (text : JSStr) (inc : Option (List JSStr)) : Bool :=
  match inc with
  | none => false
  | some l => !l.isEmpty && !containsAny text (some l)

/-- The exclude-list guard of `main` (line 219):
`exclude && exclude.length > 0 && excludedByAny(text, exclude)`. -/
def excludeDrop (text : JSStr) (exc : Option (List JSStr)) : Bool :=
  match exc with
  | none => false
  | some l => !l.isEmpty && excludedByAny text (some l)

/-- Does an item with combined text `text` pass both keyword gates of `main`? -/
def survivesKeywords (text : JSStr) (inc exc : Option (List JSStr)) : Bool :=
  !includeDrop text inc && !excludeDrop text exc

/-- One iteration of the per-entry loop in `main` (lines 213–221): normalize,
drop on a falsy url, then apply the include and exclude keyword gates to the
combined `title + ' ' + summary` text. -/
def processEntry (cleanText : JSStr → JSStr) (parseURL : JSStr → Option URLRec)
    (pd : JSStr → Option Int) (iso : Int → JSStr) (rules : List TagRule)
    (nowIso : JSStr) (feedDef : FeedDef) (stripParams : List JSStr)
    (it : RawEntry) : Option NormalizedItem :=
  let n := normalizeItem cleanText parseURL pd iso rules nowIso feedDef it stripParams
  if !truthy n.url then none
  else
    let text := n.title ++ [0x20] ++ n.summary
    if includeDrop text feedDef.kwInclude then none
    else if excludeDrop text feedDef.kwExclude then none
    else some n

/-- The per-feed normalization stage of `main` (lines 202, 212–222): cap the
raw entries with `slice(0, maxItems)` first, then normalize and filter each
survivor of the cap. -/
def feedItems (cleanText : JSStr → JSStr) (parseURL : JSStr → Option URLRec)
    (pd : JSStr → Option Int) (iso : Int → JSStr) (rules : List TagRule)
    (nowIso : JSStr) (defaults : RunDefaults) (feedDef : FeedDef)
    (entries : List RawEntry) : List NormalizedItem :=
  let maxItems := feedDef.maxItemsPerFeed.getD defaults.maxItemsPerFeed
  (entries.take maxItems).filterMap
    (processEntry cleanText parseURL pd iso rules nowIso feedDef defaults.stripUrlParams)

/-- One entry of the `errors` array (lines 226–231). -/
structure FeedErrorRecord where
  id : JSStr
  name : JSStr
  url : JSStr
  error : JSStr
deriving DecidableEq

/-- The record `main` pushes for a failed feed. -/
def errRecordOf (feedDef : FeedDef) (e : JSStr) : FeedErrorRecord :=
  ⟨feedDef.id, feedDef.name, feedDef.url, e⟩

/-- The per-feed loop of `main` (lines 201–233), with each feed's fetch+parse
outcome supplied as data: `.ok` carries the parsed entry list, `.error`
carries the thrown error's message.  Returns the accumulated `all` item list
and the `errors` list. -/
def runFeeds (cleanText : JSStr → JSStr) (parseURL : JSStr → Option URLRec)
    (pd : JSStr → Option Int) (iso : Int → JSStr) (rules : List TagRule)
    (nowIso : JSStr) (defaults : RunDefaults)
    (feeds : List (FeedDef × Except JSStr (List RawEntry))) :
    List NormalizedItem × List FeedErrorRecord :=
  feeds.foldl
    (fun acc fo =>
      match fo.2 with
      | .ok entries =>
        (acc.1 ++ feedItems cleanText parseURL pd iso rules nowIso defaults fo.1 entries,
         acc.2)
      | .error e => (acc.1, acc.2 ++ [errRecordOf fo.1 e]))
    ([], [])

/-- `Date.parse(s) || 0` (lines 244–245, 252): an unparseable timestamp
compares as epoch zero. -/
def parseOr0 (pd : JSStr → Option Int) (s : JSStr) : Int := (pd s).getD 0

/-- The sort/comparison key of an item. -/
def itemTime (pd : JSStr → Option Int) (it : NormalizedItem) : Int :=
  parseOr0 pd it.published

/-- `Map.prototype.get` on an insertion-ordered association list. -/
def mapLookup (m : List (Option JSStr × NormalizedItem)) (k : Option JSStr) :
    Option NormalizedItem :=
  match m with
  | [] => none
  | (k', v) :: rest => if k' = k then some v else mapLookup rest k

/-- `Map.prototype.set`: overwrite in place when the key exists (keeping its
insertion position), otherwise append. -/
def mapSet (m : List (Option JSStr × NormalizedItem)) (k : Option JSStr)
    (v : NormalizedItem) : List (Option JSStr × NormalizedItem) :=
  match m with
  | [] => [(k, v)]
  | (k', v') :: rest => if k' = k then (k', v) :: rest else (k', v') :: mapSet rest k v

/-- One iteration of the dedupe loop of `main` (lines 237–247): first item
for a URL is kept; a later item replaces the incumbent exactly when its
parsed timestamp is greater or equal. -/
def dedupeStep (pd : JSStr → Option Int)
    (m : List (Option JSStr × NormalizedItem)) (it : NormalizedItem) :
    List (Option JSStr × NormalizedItem) :=
  match mapLookup m it.url with
  | none => mapSet m it.url it
  | some org =>
    if parseOr0 pd org.published ≤ parseOr0 pd it.published then mapSet m it.url it
    else m

/-- The dedupe stage of `main` (lines 236–249): fold the items through the
`byUrl` map and take `Array.from(byUrl.values())`. -/
def dedupe (pd : JSStr → Option Int) (items : List NormalizedItem) :
    List NormalizedItem :=
  (items.foldl (dedupeStep pd) []).map (·.2)

/-- The comparator of the sort at line 252, as a relation: `a` may precede
`b` when `b`'s parsed timestamp is at most `a`'s (newest first). -/
def newerEq (pd : JSStr → Option Int) (a b : NormalizedItem) : Prop :=
  itemTime pd b ≤ itemTime pd a

instance (pd : JSStr → Option Int) : DecidableRel (newerEq pd) :=
  fun _ _ => Int.decLe _ _

instance (pd : JSStr → Option Int) : IsTotal NormalizedItem (newerEq pd) :=
  ⟨fun a b => (le_total (itemTime pd b) (itemTime pd a)).imp id id⟩

instance (pd : JSStr → Option Int) : IsTrans NormalizedItem (newerEq pd) :=
  ⟨fun _ _ _ h1 h2 => le_trans h2 h1⟩

/-- The rank/limit stage of `main` (lines 252–255): sort newest first
(modelled by stable insertion sort, matching the stable JS array sort),
then `slice(0, maxTotalItems)`. -/
def rankLimit (pd : JSStr → Option Int) (maxTotalItems : Nat)
    (items : List NormalizedItem) : List NormalizedItem :=
  (List.insertionSort (newerEq pd) items).take maxTotalItems

/-- The `meta` object of `main` (lines 257–262). -/
structure RunMeta where
  generatedAt : JSStr
  feedCount : Nat
  itemCount : Nat
  errors : List FeedErrorRecord
deriving DecidableEq

/-- The merge/rank/assemble tail of `main` (lines 236–262): dedupe the
collected items, sort and limit them, and build the metadata record. -/
def assembleOutputs (pd : JSStr → Option Int) (genAt : JSStr)
    (defaults : RunDefaults) (feedCount : Nat)
    (allItems : List NormalizedItem) (errors : List FeedErrorRecord) :
    List NormalizedItem × RunMeta :=
  let limited := rankLimit pd defaults.maxTotalItems (dedupe pd allItems)
  (limited, ⟨genAt, feedCount, limited.length, errors⟩)

/-- The whole run after fetching: the per-feed loop followed by the
merge/rank/assemble tail. -/
def runPipeline (cleanText : JSStr → JSStr) (parseURL : JSStr → Option URLRec)
    (pd : JSStr → Option Int) (iso : Int → JSStr) (rules : List TagRule)
    (nowIso genAt : JSStr) (defaults : RunDefaults)
    (feeds : List (FeedDef × Except JSStr (List RawEntry))) :
    List NormalizedItem × RunMeta :=
  let collected := runFeeds cleanText parseURL pd iso rules nowIso defaults feeds
  assembleOutputs pd genAt defaults feeds.length collected.1 collected.2

/-- The two output files, by their contents. -/
structure DataFiles where
  news : JSStr
  meta : JSStr
deriving DecidableEq

/-- One file-system write performed by the output stage. -/
inductive FsWrite where
  | news (contents : JSStr)
  | meta (contents : JSStr)
deriving DecidableEq

/-- The write sequence `main` performs (lines 264–265): two plain sequential
`fs.writeFile` calls, the items artifact first, then the metadata artifact.
No temporary file or rename is involved. -/
def outputWrites (newsContents metaContents : JSStr) : List FsWrite :=
  [.news newsContents, .meta metaContents]

/-- Effect of one write on the data directory. -/
def applyWrite (st : DataFiles) : FsWrite → DataFiles
  | .news c => { st with news := c }
  | .meta c => { st with meta := c }

/-- Running a write sequence to completion. -/
def runWrites (st : DataFiles) (ws : List FsWrite) : DataFiles :=
  ws.foldl applyWrite st

/-- The data-directory states observable at each point of a write sequence
(before any write, between consecutive writes, after the last): what a
reader of the two files can see while the sequence runs. -/
def statesFrom (st : DataFiles) : List FsWrite → List DataFiles
  | [] => [st]
  | w :: ws => st :: statesFrom (applyWrite st w) ws

/-- A UTF-16 code-unit sequence is well formed when it has no unpaired
surrogate: every high surrogate (`0xD800`–`0xDBFF`) is immediately followed
by a low surrogate (`0xDC00`–`0xDFFF`), and no low surrogate appears
elsewhere.  A multi-byte (astral) character is exactly such a pair, so a
broken multi-byte character is an unpaired surrogate. -/
def wellFormedUTF16 : JSStr → Bool
  | [] => true
  | c :: rest =>
    if 0xD800 ≤ c ∧ c ≤ 0xDBFF then
      match rest with
      | [] => false
      | d :: rest2 => (0xDC00 ≤ d && d ≤ 0xDFFF) && wellFormedUTF16 rest2
    else
      !(0xDC00 ≤ c && c ≤ 0xDFFF) && wellFormedUTF16 rest

/-- A 281-unit string whose code units 278–279 form one astral character
(U+1F600 as the surrogate pair `0xD83D 0xDE00`): the truncation cut at
code-unit index 279 falls inside that character. -/
def surrogateInput : JSStr := List.replicate 278 0x61 ++ [0xD83D, 0xDE00, 0x61]

/-! Concrete fixtures used by witness theorems. -/

/-- A minimal feed definition. -/
def wFeed1 : FeedDef :=
  ⟨strU "f1", strU "Feed One", strU "http://feed1.example", none, none, none, none⟩

/-- A raw entry whose only populated field is `link`. -/
def wEntryLinked : RawEntry := { emptyEntry with link := some (strU "http://a.example/x") }

/-- Run defaults with a per-feed cap of 1. -/
def wDefaultsCap1 : RunDefaults := ⟨1, 700, 25000, strU "UA", []⟩

/-- A concrete date parser for witnesses: a string's first code unit is its
timestamp. -/
def wPd : JSStr → Option Int := fun s => s.head?.map fun n => (n : Int)

/-- A concrete item whose url, id and published timestamp are all derived
from one tag number. -/
def mkItem (tag : Nat) : NormalizedItem :=
  ⟨[tag], [tag], some [tag], [], [], [], [], [tag], []⟩

/-- Two concrete items sharing a url, published at times 1 and 2. -/
def wDupA : NormalizedItem := ⟨[10], [10], some [7], [], [], [], [], [1], []⟩

/-- See `wDupA`. -/
def wDupB : NormalizedItem := ⟨[11], [11], some [7], [], [], [], [], [2], []⟩

/-- A concrete two-rule table for the tag-classifier witness. -/
def wRules : List TagRule :=
  [⟨strU "Privacy", fun t => hasSub t (strU "privacy")⟩,
   ⟨strU "AI", fun t => hasSub t (strU "ai")⟩]

/-- The include list of the spec's keyword example. -/
def incPrivacy : Option (List JSStr) := some [strU "privacy"]

/-- The exclude list of the spec's keyword example. -/
def excGdpr : Option (List JSStr) := some [strU "gdpr"]

/-- A parse function behaving exactly as `new URL` does on
`http://a.example/x#`: the fragment is present but empty (so the hash
getter reads `''`), and serialization keeps the trailing bare `#`. -/
def wParseBareHash : JSStr → Option URLRec := fun s =>
  if s = strU "http://a.example/x#"
  then some ⟨strU "http://a.example/x", none, some []⟩
  else none

/-! ## Helper lemmas -/

theorem normalizeItem_id (cleanText : JSStr → JSStr) (parseURL : JSStr → Option URLRec)
    (pd : JSStr → Option Int) (iso : Int → JSStr) (rules : List TagRule)
    (nowIso : JSStr) (feedDef : FeedDef) (item : RawEntry) (sp : List JSStr) :
    (normalizeItem cleanText parseURL pd iso rules nowIso feedDef item sp).id
      = fnv1a (stableIdSeed feedDef.id
          (normalizeItem cleanText parseURL pd iso rules nowIso feedDef item sp).title
          (normalizeItem cleanText parseURL pd iso rules nowIso feedDef item sp).url
          (resolvePublished pd iso item)) := rfl

theorem stableIdSeed_of_truthy (f t : JSStr) (url p : Option JSStr)
    (h : truthy url = true) : stableIdSeed f t url p = url.getD [] := by
  simp [stableIdSeed, h]

theorem stableIdSeed_of_falsy (f t : JSStr) (url p : Option JSStr)
    (h : truthy url = false) :
    stableIdSeed f t url p = f ++ [0x7C] ++ t ++ [0x7C] ++ p.getD [] := by
  simp [stableIdSeed, h]

/-! ## C1 -/

/-- C1: the stable identifier is a deterministic function of its seed.  Two
computations of `normalizeItem` — under arbitrary (and possibly different)
host behavior, run times, feed definitions and strip lists — produce
byte-identical ids whenever they agree on the canonical URL (when one
survives), or, when no URL survives in either, on the triple of feed id,
cleaned title and resolved published date. -/
theorem stable_id_deterministic
    (clean1 clean2 : JSStr → JSStr) (purl1 purl2 : JSStr → Option URLRec)
    (pd1 pd2 : JSStr → Option Int) (iso1 iso2 : Int → JSStr)
    (rules1 rules2 : List TagRule) (now1 now2 : JSStr)
    (fd1 fd2 : FeedDef) (it1 it2 : RawEntry) (sp1 sp2 : List JSStr)
    (n1 n2 : NormalizedItem)
    (h1 : n1 = normalizeItem clean1 purl1 pd1 iso1 rules1 now1 fd1 it1 sp1)
    (h2 : n2 = normalizeItem clean2 purl2 pd2 iso2 rules2 now2 fd2 it2 sp2) :
    (truthy n1.url = true → n1.url = n2.url → n1.id = n2.id) ∧
    (truthy n1.url = false → truthy n2.url = false →
      fd1.id = fd2.id → n1.title = n2.title →
      resolvePublished pd1 iso1 it1 = resolvePublished pd2 iso2 it2 →
      n1.id = n2.id) := by
  subst h1 h2
  constructor
  · intro ht hu
    rw [normalizeItem_id, normalizeItem_id,
      stableIdSeed_of_truthy _ _ _ _ ht, stableIdSeed_of_truthy _ _ _ _ (hu ▸ ht), hu]
  · intro ht1 ht2 hid htitle hpub
    rw [normalizeItem_id, normalizeItem_id,
      stableIdSeed_of_falsy _ _ _ _ ht1, stableIdSeed_of_falsy _ _ _ _ ht2,
      hid, htitle, hpub]

/-- Witness for C1: two runs at different run times over the same linked
entry give the same id. -/
theorem stable_id_deterministic_witness :
    (normalizeItem (fun s => s) (fun _ => none) (fun _ => none) (fun _ => [])
        [] (strU "2025-01-01T00:00:00Z") wFeed1 wEntryLinked []).id
      = (normalizeItem (fun s => s) (fun _ => none) (fun _ => none) (fun _ => [])
        [] (strU "2026-02-02T00:00:00Z") wFeed1 wEntryLinked []).id :=
  (stable_id_deterministic (fun s => s) (fun s => s) (fun _ => none) (fun _ => none)
      (fun _ => none) (fun _ => none) (fun _ => []) (fun _ => []) [] []
      (strU "2025-01-01T00:00:00Z") (strU "2026-02-02T00:00:00Z")
      wFeed1 wFeed1 wEntryLinked wEntryLinked [] [] _ _ rfl rfl).1 (by decide) rfl

/-! ## C9 -/

/-- C9 (counterexample): the two output artifacts are not written atomically
as a pair.  Between the two sequential `fs.writeFile` calls a reader
observes the data directory with the items artifact already holding the new
run's output while the metadata artifact still holds the previous
contents — a state in which neither "both reflect the run" nor "neither is
updated" holds. -/
theorem paired_write_not_atomic :
    (⟨strU "newNews", strU "oldMeta"⟩ : DataFiles) ∈
      statesFrom ⟨strU "oldNews", strU "oldMeta"⟩
        (outputWrites (strU "newNews") (strU "newMeta")) ∧
    strU "newNews" ≠ strU "oldNews" ∧ strU "oldMeta" ≠ strU "newMeta" := by
  refine ⟨?_, by decide, by decide⟩
  simp [statesFrom, outputWrites, applyWrite]

/-- C9 (amended): the two artifacts are written sequentially — the items
artifact first, then the metadata artifact — each by one plain write; an
uninterrupted run leaves both files holding the same run's outputs, but the
intermediate observable state pairs the new items artifact with the stale
metadata artifact. -/
theorem paired_write_sequential (init : DataFiles) (n m : JSStr) :
    runWrites init (outputWrites n m) = ⟨n, m⟩ ∧
    statesFrom init (outputWrites n m) = [init, ⟨n, init.meta⟩, ⟨n, m⟩] := by
  exact ⟨rfl, rfl⟩

/-! ## C8 -/

theorem foldl_pushIf (t : JSStr) (rules : List TagRule) (acc : List JSStr) :
    rules.foldl (fun tags r => if r.test t then tags ++ [r.tag] else tags) acc
      = acc ++ (rules.filter fun r => r.test t).map (·.tag) := by
  induction rules generalizing acc with
  | nil => simp
  | cons r rs ih =>
    by_cases h : r.test t <;>
      simp [List.filter_cons, h, ih, List.append_assoc]

theorem computeTags_eq (rules : List TagRule) (text : JSStr) :
    computeTags rules text
      = (rules.filter fun r => r.test (toLowerStr text)).map (·.tag) := by
  simpa [computeTags] using foldl_pushIf (toLowerStr text) rules []

/-- C8: the tag classifier walks its rules in definition order; a rule whose
test fires contributes its tag exactly once and a rule whose test does not
fire contributes nothing, so (the rule table's tag names being distinct, as
the script's nine are) the output has no duplicates and is an in-order
sublist of the rule-definition order. -/
theorem computeTags_spec (rules : List TagRule) (text : JSStr)
    (hn : (rules.map (·.tag)).Nodup) :
    (computeTags rules text).Nodup ∧
    List.Sublist (computeTags rules text) (rules.map (·.tag)) ∧
    (∀ r ∈ rules,
        (r.tag ∈ computeTags rules text ↔ r.test (toLowerStr text) = true)) ∧
    ruleTagNames.Nodup := by
  have hsub : List.Sublist (computeTags rules text) (rules.map (·.tag)) := by
    rw [computeTags_eq]
    exact ((rules.filter_sublist).map (·.tag))
  have hnd : (computeTags rules text).Nodup := hn.sublist hsub
  refine ⟨hnd, hsub, ?_, by decide⟩
  intro r hr
  constructor
  · intro hmem
    rw [computeTags_eq] at hmem
    obtain ⟨r', hr', htag⟩ := List.mem_map.mp hmem
    obtain ⟨hr'mem, hr'test⟩ := List.mem_filter.mp hr'
    have heq : r' = r := List.inj_on_of_nodup_map hn hr'mem hr htag
    rw [heq] at hr'test
    simpa using hr'test
  · intro htest
    rw [computeTags_eq]
    exact List.mem_map_of_mem _ (List.mem_filter.mpr ⟨hr, by simpa using htest⟩)

/-- Witness for C8: the two-rule table classifying a privacy headline. -/
theorem computeTags_spec_witness :
    (computeTags wRules (strU "Privacy and AI news")).Nodup ∧
    List.Sublist (computeTags wRules (strU "Privacy and AI news")) (wRules.map (·.tag)) ∧
    (∀ r ∈ wRules,
        (r.tag ∈ computeTags wRules (strU "Privacy and AI news") ↔
          r.test (toLowerStr (strU "Privacy and AI news")) = true)) ∧
    ruleTagNames.Nodup :=
  computeTags_spec wRules (strU "Privacy and AI news") (by decide)

/-! ## C4 -/

theorem head_dropWhile_not_ws (p : Nat → Bool) (l : JSStr) (c : Nat)
    (h : (l.dropWhile p).head? = some c) : p c = false := by
  induction l with
  | nil => simp [List.dropWhile] at h
  | cons a t ih =>
    rw [List.dropWhile_cons] at h
    by_cases hp : p a
    · exact ih (by simpa [hp] using h)
    · simp [hp] at h
      simpa [← h] using hp

theorem jsTrimEnd_getLast_not_ws (s : JSStr) (c : Nat)
    (h : (jsTrimEnd s).getLast? = some c) : isWs c = false := by
  unfold jsTrimEnd at h
  rw [List.getLast?_reverse] at h
  exact head_dropWhile_not_ws isWs s.reverse c h

theorem jsTrim_getLast_not_ws (s : JSStr) (c : Nat)
    (h : (jsTrim s).getLast? = some c) : isWs c = false :=
  jsTrimEnd_getLast_not_ws (jsTrimStart s) c h

theorem jsTrimEnd_length_le (s : JSStr) : (jsTrimEnd s).length ≤ s.length := by
  unfold jsTrimEnd
  calc (s.reverse.dropWhile isWs).reverse.length
      = (s.reverse.dropWhile isWs).length := by rw [List.length_reverse]
    _ ≤ s.reverse.length := (List.dropWhile_sublist _).length_le
    _ = s.length := by rw [List.length_reverse]

set_option maxRecDepth 8000 in
/-- C4 (counterexample): the claim fails on the code in two ways.  The
appended marker is the three-code-unit literal `'â€¦'`, so a 281-character
summary truncated to the configured bound of 280 yields 282 characters,
exceeding the bound; and the slice cuts at a raw UTF-16 code-unit index, so
truncation of a well-formed input can cut inside a surrogate pair, leaving
an unpaired high surrogate — a split multi-byte character — in the result. -/
theorem truncate_claim_fails :
    (truncate (some (List.replicate 281 0x61)) 280).length = 282 ∧
    wellFormedUTF16 surrogateInput = true ∧
    wellFormedUTF16 (truncate (some surrogateInput) 280) = false := by
  refine ⟨by decide, by decide, by decide⟩

/-- C4 (amended): for every input and every bound of at least 1, the
truncation operation returns at most bound + 2 code units (the appended
marker `'â€¦'` is three code units long, so a truncated result may exceed
the stated bound by two); a within-bound input is returned merely trimmed,
with nothing appended; a truncated result ends in the marker; trailing
whitespace is trimmed in both cases; and the cut is made at a raw UTF-16
code-unit index, so it may fall inside a surrogate pair. -/
theorem truncate_spec (s : Option JSStr) (maxLen : Int) (hm : 1 ≤ maxLen) :
    ((truncate s maxLen).length : Int) ≤ maxLen + 2 ∧
    (((jsTrim (s.getD [])).length : Int) ≤ maxLen →
        truncate s maxLen = jsTrim (s.getD [])) ∧
    (((jsTrim (s.getD [])).length : Int) > maxLen →
        (ellipsisMarker).IsSuffix (truncate s maxLen)) ∧
    (∀ c, (truncate s maxLen).getLast? = some c → isWs c = false) := by
  unfold truncate
  by_cases hle : ((jsTrim (s.getD [])).length : Int) ≤ maxLen
  · rw [if_pos hle]
    refine ⟨le_trans hle (by omega), fun _ => rfl, fun hgt => absurd hle (not_le.mpr hgt), ?_⟩
    exact fun c hc => jsTrim_getLast_not_ws _ c hc
  · rw [if_neg hle]
    have hself : ¬ (maxLen - 1) < 0 := by omega
    have hlen : (jsTrimEnd (jsSlice0 (jsTrim (s.getD [])) (maxLen - 1))).length
        ≤ (maxLen - 1).toNat := by
      refine le_trans (jsTrimEnd_length_le _) ?_
      unfold jsSlice0
      rw [if_neg hself]
      exact List.length_take_le _ _
    refine ⟨?_, fun h => absurd h hle, fun _ => List.suffix_append _ _, ?_⟩
    · rw [List.length_append]
      have h3 : ellipsisMarker.length = 3 := by decide
      rw [h3]
      have : ((maxLen - 1).toNat : Int) = maxLen - 1 := Int.toNat_of_nonneg (by omega)
      omega
    · intro c hc
      rw [List.getLast?_append_of_ne_nil _ (by decide)] at hc
      have : c = 0xA6 := by
        have hl : ellipsisMarker.getLast? = some 0xA6 := by decide
        rw [hl] at hc
        exact (Option.some_injective _ hc.symm)
      rw [this]
      decide

/-- Witness for C4 (amended) at the configured bound of 280. -/
theorem truncate_spec_witness :
    ((truncate (some (strU "hello")) 280).length : Int) ≤ 280 + 2 ∧
    (((jsTrim (strU "hello")).length : Int) ≤ 280 →
        truncate (some (strU "hello")) 280 = jsTrim (strU "hello")) ∧
    (((jsTrim (strU "hello")).length : Int) > 280 →
        (ellipsisMarker).IsSuffix (truncate (some (strU "hello")) 280)) ∧
    (∀ c, (truncate (some (strU "hello")) 280).getLast? = some c → isWs c = false) :=
  truncate_spec (some (strU "hello")) 280 (by decide)

/-! ## C5 -/

theorem includeDrop_eq_false_iff (text : JSStr) (inc : Option (List JSStr)) :
    includeDrop text inc = false ↔
      ∀ l, inc = some l → l ≠ [] →
        ∃ kw ∈ l, hasSub (toLowerStr text) (toLowerStr kw) = true := by
  cases inc with
  | none => simp [includeDrop]
  | some l =>
    by_cases hne : l = []
    · subst hne; simp [includeDrop]
    · have hie : l.isEmpty = false := by simpa [List.isEmpty_iff] using hne
      simp [includeDrop, containsAny, hie, hne, List.any_eq_true]

theorem excludeDrop_eq_false_iff (text : JSStr) (exc : Option (List JSStr)) :
    excludeDrop text exc = false ↔
      ∀ l, exc = some l → l ≠ [] →
        ∀ kw ∈ l, hasSub (toLowerStr text) (toLowerStr kw) = false := by
  cases exc with
  | none => simp [excludeDrop]
  | some l =>
    by_cases hne : l = []
    · subst hne; simp [excludeDrop]
    · have hie : l.isEmpty = false := by simpa [List.isEmpty_iff] using hne
      simp [excludeDrop, excludedByAny, hie, hne, List.any_eq_false]

/-- C5: an item survives the keyword gate iff it passes both checks — when a
non-empty include list is configured, its lowercased text contains some
include keyword, and when a non-empty exclude list is configured, its text
contains no exclude keyword; absent or empty lists impose no constraint.
Every item the per-entry loop emits passed this gate on its combined
title+summary text, and on the spec's `["privacy"]`/`["gdpr"]` example the
three scenarios behave as claimed. -/
theorem keyword_filter_spec (text : JSStr) (inc exc : Option (List JSStr)) :
    (survivesKeywords text inc exc = true ↔
      ((∀ l, inc = some l → l ≠ [] →
          ∃ kw ∈ l, hasSub (toLowerStr text) (toLowerStr kw) = true) ∧
       (∀ l, exc = some l → l ≠ [] →
          ∀ kw ∈ l, hasSub (toLowerStr text) (toLowerStr kw) = false))) ∧
    (∀ cleanText parseURL pd iso rules nowIso fd sp it n,
        processEntry cleanText parseURL pd iso rules nowIso fd sp it = some n →
        survivesKeywords (n.title ++ [0x20] ++ n.summary) fd.kwInclude fd.kwExclude
          = true) ∧
    survivesKeywords (strU "New Privacy rules under GDPR") incPrivacy excGdpr = false ∧
    survivesKeywords (strU "New Privacy rules") incPrivacy excGdpr = true ∧
    survivesKeywords (strU "Sports news today") incPrivacy excGdpr = false := by
  refine ⟨?_, ?_, by decide, by decide, by decide⟩
  · rw [survivesKeywords, Bool.and_eq_true, Bool.not_eq_true', Bool.not_eq_true']
    rw [includeDrop_eq_false_iff, excludeDrop_eq_false_iff]
  · intro cleanText parseURL pd iso rules nowIso fd sp it n h
    simp only [processEntry] at h
    split at h
    · exact absurd h (by simp)
    · split at h
      · exact absurd h (by simp)
      · split at h
        · exact absurd h (by simp)
        · rename_i hurl hinc hexc
          injection h with h'
          subst h'
          simp only [Bool.not_eq_true, List.append_assoc, List.singleton_append]
            at hinc hexc
          simp [survivesKeywords, hinc, hexc]

/-- Witness for C5: the kept scenario of the spec's example, via the main
keyword theorem. -/
theorem keyword_filter_spec_witness :
    survivesKeywords (strU "New Privacy rules") incPrivacy excGdpr = true :=
  (keyword_filter_spec (strU "New Privacy rules") incPrivacy excGdpr).2.2.2.1

/-! ## C6 -/

theorem hashGetter_ne_bare (u : URLRec) : u.hashGetter ≠ [0x23] := by
  obtain ⟨b, q, fr⟩ := u
  rcases fr with _ | f
  · simp [URLRec.hashGetter]
  · by_cases hf : f.isEmpty = true
    · simp [URLRec.hashGetter, hf]
    · dsimp only [URLRec.hashGetter]
      rw [if_neg hf]
      intro h
      injection h with h1 h2
      rw [h2] at hf
      exact hf rfl

theorem cleanUrl_parse_some (parseURL : JSStr → Option URLRec) (s : JSStr)
    (sp : List JSStr) (u0 : URLRec) (hie : s.isEmpty = false)
    (hparse : parseURL s = some u0) :
    cleanUrl parseURL (some s) sp = some (cleanedRec u0 sp).render := by
  obtain ⟨b, q, fr⟩ := u0
  simp only [cleanUrl, hie, hparse, Bool.false_eq_true, if_false]
  rw [if_neg (hashGetter_ne_bare _)]
  congr 1
  rcases q with _ | ps0
  · dsimp [cleanedRec, cleanedQuery]
  · by_cases hf : ((ps0.filter fun p => !sp.any (p.1 = ·)).isEmpty) = true
    · dsimp [cleanedRec, cleanedQuery]
      rw [if_pos hf, if_pos hf]
    · dsimp [cleanedRec, cleanedQuery]
      rw [if_neg hf, if_neg hf]

theorem cleanedRec_query (u0 : URLRec) (sp : List JSStr) (ps : List (JSStr × JSStr))
    (h : (cleanedRec u0 sp).query = some ps) :
    ps ≠ [] ∧ ∀ p ∈ ps, ¬ p.1 ∈ sp := by
  dsimp only [cleanedRec, cleanedQuery] at h
  rcases hq0 : u0.query with _ | ps0 <;> rw [hq0] at h
  · simp at h
  · dsimp only [Option.map_some'] at h
    by_cases hf : ((ps0.filter fun p => !sp.any (p.1 = ·)).isEmpty) = true
    · rw [if_pos hf] at h
      exact absurd h (by simp)
    · rw [if_neg hf] at h
      injection h with h'
      subst h'
      refine ⟨by simpa [List.isEmpty_iff] using hf, ?_⟩
      intro p hp hmem
      have hpred := List.of_mem_filter hp
      rw [Bool.not_eq_true'] at hpred
      rw [List.any_eq_false] at hpred
      have hcontra := hpred p.1 hmem
      simp at hcontra

theorem cleanedRec_fragment (u0 : URLRec) (sp : List JSStr) :
    (cleanedRec u0 sp).fragment = u0.fragment := rfl

/-- C6 (counterexample): the bare fragment marker is not cleared.  Against a
URL parser behaving exactly as `new URL` does on `http://a.example/x#` —
fragment present but empty, so the `hash` getter reads `''` while
serialization keeps the trailing `#` — `cleanUrl` returns the URL with its
bare `#` intact, because the `u.hash === '#'` check can never fire. -/
theorem bare_fragment_not_cleared :
    cleanUrl wParseBareHash (some (strU "http://a.example/x#")) []
      = some (strU "http://a.example/x#") ∧
    (strU "http://a.example/x#").getLast? = some 0x23 :=
  ⟨by decide, by decide⟩

/-- C6 (amended): URL resolution picks the first truthy candidate among
`link`, `guid` and the first element of a `links` collection; an entry with
no candidate is dropped by the per-entry loop and never reaches the output;
a candidate the URL parser rejects is passed through unchanged; and a
parsed candidate is re-serialized with every configured strip-parameter
removed and an emptied query cleared, while the fragment passes through
unchanged — the bare-`#` check compares the hash getter's value with `'#'`,
which that getter never produces, so the clearing branch is dead. -/
theorem url_resolution_spec :
    (∀ it : RawEntry, truthy it.link = true → resolveRawLink it = it.link) ∧
    (∀ it : RawEntry, truthy it.link = false → truthy it.guid = true →
        resolveRawLink it = it.guid) ∧
    (∀ it : RawEntry, truthy it.link = false → truthy it.guid = false →
        resolveRawLink it = linksFirst it) ∧
    (∀ (cleanText : JSStr → JSStr) (parseURL : JSStr → Option URLRec)
        (pd : JSStr → Option Int) (iso : Int → JSStr) (rules : List TagRule)
        (nowIso : JSStr) (fd : FeedDef) (sp : List JSStr) (it : RawEntry),
        truthy (resolveRawLink it) = false →
        processEntry cleanText parseURL pd iso rules nowIso fd sp it = none) ∧
    (∀ (parseURL : JSStr → Option URLRec) (s : JSStr) (sp : List JSStr),
        s ≠ [] → parseURL s = none → cleanUrl parseURL (some s) sp = some s) ∧
    (∀ (parseURL : JSStr → Option URLRec) (s : JSStr) (sp : List JSStr)
        (u0 : URLRec), s ≠ [] → parseURL s = some u0 →
        ∃ u : URLRec, cleanUrl parseURL (some s) sp = some u.render ∧
          (∀ ps, u.query = some ps → ps ≠ [] ∧ ∀ p ∈ ps, ¬ p.1 ∈ sp) ∧
          u.fragment = u0.fragment) ∧
    (∀ u : URLRec, u.hashGetter ≠ [0x23]) := by
  refine ⟨?_, ?_, ?_, ?_, ?_, ?_, hashGetter_ne_bare⟩
  · intro it h
    simp [resolveRawLink, jsOr, h]
  · intro it h1 h2
    simp [resolveRawLink, jsOr, h1, h2]
  · intro it h1 h2
    simp [resolveRawLink, jsOr, h1, h2]
  · intro cleanText parseURL pd iso rules nowIso fd sp it h
    have hurl : cleanUrl parseURL (resolveRawLink it) sp = none := by
      cases hl : resolveRawLink it with
      | none => rfl
      | some s =>
        rw [hl] at h
        have : s.isEmpty = true := by
          simpa [truthy] using h
        simp [cleanUrl, this]
    have hnu : (normalizeItem cleanText parseURL pd iso rules nowIso fd it sp).url
        = none := hurl
    simp [processEntry, hnu, truthy]
  · intro parseURL s sp hne hparse
    have hie : s.isEmpty = false := by simpa [List.isEmpty_iff] using hne
    simp [cleanUrl, hie, hparse]
  · intro parseURL s sp u0 hne hparse
    have hie : s.isEmpty = false := by simpa [List.isEmpty_iff] using hne
    refine ⟨cleanedRec u0 sp, ?_, ?_, cleanedRec_fragment u0 sp⟩
    · exact cleanUrl_parse_some parseURL s sp u0 hie hparse
    · intro ps hps
      exact cleanedRec_query u0 sp ps hps

/-- Witness for C6: a present-but-unparseable candidate passes through
unchanged. -/
theorem url_resolution_spec_witness :
    cleanUrl (fun _ => none) (some (strU "not a url")) [] = some (strU "not a url") :=
  url_resolution_spec.2.2.2.2.1 (fun _ => none) (strU "not a url") [] (by decide) rfl

/-! ## C7 -/

theorem runFeeds_acc (cleanText : JSStr → JSStr) (parseURL : JSStr → Option URLRec)
    (pd : JSStr → Option Int) (iso : Int → JSStr) (rules : List TagRule)
    (nowIso : JSStr) (defaults : RunDefaults)
    (feeds : List (FeedDef × Except JSStr (List RawEntry)))
    (acc : List NormalizedItem × List FeedErrorRecord) :
    feeds.foldl
      (fun acc fo =>
        match fo.2 with
        | .ok entries =>
          (acc.1 ++ feedItems cleanText parseURL pd iso rules nowIso defaults fo.1 entries,
           acc.2)
        | .error e => (acc.1, acc.2 ++ [errRecordOf fo.1 e]))
      acc
    = (acc.1 ++ (runFeeds cleanText parseURL pd iso rules nowIso defaults feeds).1,
       acc.2 ++ (runFeeds cleanText parseURL pd iso rules nowIso defaults feeds).2) := by
  induction feeds generalizing acc with
  | nil => simp [runFeeds]
  | cons fo rest ih =>
    rcases fo with ⟨fd, oc⟩
    cases oc with
    | ok entries =>
      rw [runFeeds, List.foldl_cons, List.foldl_cons, ih, ih ([] ++ _, _)]
      simp
    | error e =>
      rw [runFeeds, List.foldl_cons, List.foldl_cons, ih, ih (_, [] ++ _)]
      simp

theorem runFeeds_append (cleanText : JSStr → JSStr) (parseURL : JSStr → Option URLRec)
    (pd : JSStr → Option Int) (iso : Int → JSStr) (rules : List TagRule)
    (nowIso : JSStr) (defaults : RunDefaults)
    (l1 l2 : List (FeedDef × Except JSStr (List RawEntry))) :
    runFeeds cleanText parseURL pd iso rules nowIso defaults (l1 ++ l2)
      = ((runFeeds cleanText parseURL pd iso rules nowIso defaults l1).1
           ++ (runFeeds cleanText parseURL pd iso rules nowIso defaults l2).1,
         (runFeeds cleanText parseURL pd iso rules nowIso defaults l1).2
           ++ (runFeeds cleanText parseURL pd iso rules nowIso defaults l2).2) := by
  rw [runFeeds, List.foldl_append]
  exact runFeeds_acc cleanText parseURL pd iso rules nowIso defaults l2 _

/-- C7: a feed whose fetch or parse fails contributes zero items — the item
list of a run containing the failing feed equals that of the same run with
the failing feed removed — and contributes exactly one error record,
carrying its id, name, url and error message, placed between the error
records of the feeds before and after it; the run still assembles a
complete output pair whose metadata carries those errors and the final item
count. -/
theorem feed_failure_isolated (cleanText : JSStr → JSStr) (parseURL : JSStr → Option URLRec)
    (pd : JSStr → Option Int) (iso : Int → JSStr) (rules : List TagRule)
    (nowIso genAt : JSStr) (defaults : RunDefaults)
    (pre post : List (FeedDef × Except JSStr (List RawEntry)))
    (fd : FeedDef) (e : JSStr) :
    (runFeeds cleanText parseURL pd iso rules nowIso defaults
        (pre ++ (fd, Except.error e) :: post)).1
      = (runFeeds cleanText parseURL pd iso rules nowIso defaults (pre ++ post)).1 ∧
    (runFeeds cleanText parseURL pd iso rules nowIso defaults
        (pre ++ (fd, Except.error e) :: post)).2
      = (runFeeds cleanText parseURL pd iso rules nowIso defaults pre).2
        ++ errRecordOf fd e
          :: (runFeeds cleanText parseURL pd iso rules nowIso defaults post).2 ∧
    errRecordOf fd e = ⟨fd.id, fd.name, fd.url, e⟩ ∧
    (runPipeline cleanText parseURL pd iso rules nowIso genAt defaults
        (pre ++ (fd, Except.error e) :: post)).2.errors
      = (runFeeds cleanText parseURL pd iso rules nowIso defaults
          (pre ++ (fd, Except.error e) :: post)).2 ∧
    (runPipeline cleanText parseURL pd iso rules nowIso genAt defaults
        (pre ++ (fd, Except.error e) :: post)).2.itemCount
      = (runPipeline cleanText parseURL pd iso rules nowIso genAt defaults
          (pre ++ (fd, Except.error e) :: post)).1.length := by
  have hsingle : runFeeds cleanText parseURL pd iso rules nowIso defaults
      [(fd, Except.error e)] = ([], [errRecordOf fd e]) := rfl
  have hmid : (fd, Except.error e) :: post = [(fd, Except.error e)] ++ post := rfl
  refine ⟨?_, ?_, rfl, rfl, rfl⟩
  · rw [hmid, runFeeds_append, runFeeds_append, runFeeds_append, hsingle]
    simp
  · rw [hmid, runFeeds_append, runFeeds_append, hsingle]
    simp

/-! ## C10 -/

/-- C10: the per-feed cap is applied to the raw entry sequence before
normalization and filtering — the stage only ever looks at the first
`maxItemsPerFeed` raw entries (so it is unchanged by discarding the rest),
its output never exceeds the cap, and concretely, with a cap of 1, a feed
whose first raw entry lacks any URL contributes nothing even though its
second raw entry would have normalized and passed every filter. -/
theorem per_feed_cap_before_filters (cleanText : JSStr → JSStr)
    (parseURL : JSStr → Option URLRec) (pd : JSStr → Option Int)
    (iso : Int → JSStr) (rules : List TagRule) (nowIso : JSStr)
    (defaults : RunDefaults) (fd : FeedDef) (entries : List RawEntry) :
    feedItems cleanText parseURL pd iso rules nowIso defaults fd entries
      = feedItems cleanText parseURL pd iso rules nowIso defaults fd
          (entries.take (fd.maxItemsPerFeed.getD defaults.maxItemsPerFeed)) ∧
    (feedItems cleanText parseURL pd iso rules nowIso defaults fd entries).length
      ≤ fd.maxItemsPerFeed.getD defaults.maxItemsPerFeed ∧
    feedItems (fun s => s) (fun _ => none) (fun _ => none) (fun _ => []) []
        (strU "now") wDefaultsCap1 wFeed1 [emptyEntry, wEntryLinked] = [] ∧
    feedItems (fun s => s) (fun _ => none) (fun _ => none) (fun _ => []) []
        (strU "now") wDefaultsCap1 wFeed1 [wEntryLinked] ≠ [] := by
  refine ⟨?_, ?_, by decide, by decide⟩
  · rw [feedItems, feedItems, List.take_take, min_self]
  · calc (feedItems cleanText parseURL pd iso rules nowIso defaults fd entries).length
        ≤ (entries.take (fd.maxItemsPerFeed.getD defaults.maxItemsPerFeed)).length :=
          List.length_filterMap_le _ _
      _ ≤ fd.maxItemsPerFeed.getD defaults.maxItemsPerFeed := List.length_take_le _ _

/-! ## C3 -/

/-- C3: the final items artifact is the deduplicated set sorted descending
by published timestamp and truncated to `maxTotalItems`: the output never
exceeds the cap, is in non-increasing parsed-timestamp order, together with
the discarded tail it is a permutation of the input, every kept element's
timestamp is at least every discarded element's timestamp, and with a cap
of 3 over 5 items of distinct timestamps the output is exactly the 3 most
recent in descending order. -/
theorem rank_limit_spec (pd : JSStr → Option Int) (k : Nat)
    (l : List NormalizedItem) :
    (rankLimit pd k l).length ≤ k ∧
    (rankLimit pd k l).Sorted (newerEq pd) ∧
    (rankLimit pd k l ++ (List.insertionSort (newerEq pd) l).drop k).Perm l ∧
    (∀ x ∈ rankLimit pd k l, ∀ y ∈ (List.insertionSort (newerEq pd) l).drop k,
        itemTime pd y ≤ itemTime pd x) ∧
    rankLimit wPd 3 [mkItem 1, mkItem 2, mkItem 3, mkItem 4, mkItem 5]
      = [mkItem 5, mkItem 4, mkItem 3] := by
  refine ⟨List.length_take_le _ _, ?_, ?_, ?_, by decide⟩
  · exact ((List.sorted_insertionSort (newerEq pd) l).sublist (List.take_sublist _ _))
  · rw [rankLimit, List.take_append_drop]
    exact List.perm_insertionSort _ _
  · intro x hx y hy
    exact (List.sorted_insertionSort (newerEq pd) l).rel_of_mem_take_of_mem_drop hx hy

/-- Witness for C3: in the concrete 5-item run, a kept item is at least as
recent as a discarded one. -/
theorem rank_limit_spec_witness :
    itemTime wPd (mkItem 2) ≤ itemTime wPd (mkItem 5) :=
  (rank_limit_spec wPd 3 [mkItem 1, mkItem 2, mkItem 3, mkItem 4, mkItem 5]).2.2.2.1
    (mkItem 5) (by decide) (mkItem 2) (by decide)

/-! ## C2 -/

theorem mapLookup_eq_none_iff (m : List (Option JSStr × NormalizedItem))
    (k : Option JSStr) :
    mapLookup m k = none ↔ ¬ k ∈ m.map (·.1) := by
  induction m with
  | nil => simp [mapLookup]
  | cons p rest ih =>
    rcases p with ⟨k', v⟩
    by_cases h : k' = k
    · subst h
      simp [mapLookup]
    · simp [mapLookup, h, ih, Ne.symm h]

theorem mapSet_keys (m : List (Option JSStr × NormalizedItem)) (k : Option JSStr)
    (v : NormalizedItem) :
    (mapSet m k v).map (·.1)
      = if k ∈ m.map (·.1) then m.map (·.1) else m.map (·.1) ++ [k] := by
  induction m with
  | nil => simp [mapSet]
  | cons p rest ih =>
    rcases p with ⟨k', v'⟩
    by_cases h : k' = k
    · subst h
      simp [mapSet]
    · simp only [mapSet, if_neg h, List.map_cons, ih]
      by_cases hm : k ∈ rest.map (·.1)
      · simp [hm, Ne.symm h]
      · simp [hm, Ne.symm h]

theorem mapSet_pairs (m : List (Option JSStr × NormalizedItem)) (k : Option JSStr)
    (v : NormalizedItem) (hv : v.url = k) (hc : ∀ p ∈ m, p.2.url = p.1) :
    ∀ p ∈ mapSet m k v, p.2.url = p.1 := by
  induction m with
  | nil =>
    intro p hp
    simp [mapSet] at hp
    subst hp
    exact hv
  | cons q rest ih =>
    rcases q with ⟨k', v'⟩
    by_cases h : k' = k
    · subst h
      intro p hp
      rcases List.mem_cons.mp (by simpa [mapSet] using hp) with rfl | hp2
      · exact hv
      · exact hc p (List.mem_cons_of_mem _ hp2)
    · intro p hp
      rw [mapSet, if_neg h] at hp
      rcases List.mem_cons.mp hp with rfl | hp2
      · exact hc (k', v') (by simp)
      · exact ih (fun q hq => hc q (List.mem_cons_of_mem _ hq)) p hp2

theorem dedupeStep_keys (pd : JSStr → Option Int)
    (m : List (Option JSStr × NormalizedItem)) (it : NormalizedItem) :
    (dedupeStep pd m it).map (·.1)
      = if it.url ∈ m.map (·.1) then m.map (·.1) else m.map (·.1) ++ [it.url] := by
  cases hl : mapLookup m it.url with
  | none =>
    have hnm : ¬ it.url ∈ m.map (·.1) := (mapLookup_eq_none_iff _ _).mp hl
    simp only [dedupeStep, hl]
    rw [mapSet_keys, if_neg hnm]
  | some org =>
    have hmem : it.url ∈ m.map (·.1) := by
      by_contra hcon
      have h2 := (mapLookup_eq_none_iff m it.url).mpr hcon
      rw [h2] at hl
      exact Option.noConfusion hl
    simp only [dedupeStep, hl]
    rw [if_pos hmem]
    split
    · rw [mapSet_keys, if_pos hmem]
    · rfl

theorem dedupeStep_keys_nodup (pd : JSStr → Option Int)
    (m : List (Option JSStr × NormalizedItem)) (it : NormalizedItem)
    (h : (m.map (·.1)).Nodup) : ((dedupeStep pd m it).map (·.1)).Nodup := by
  rw [dedupeStep_keys]
  split
  · exact h
  · rename_i hmem
    rw [List.nodup_append]
    exact ⟨h, by simp, by simpa using hmem⟩

theorem dedupeStep_pairs (pd : JSStr → Option Int)
    (m : List (Option JSStr × NormalizedItem)) (it : NormalizedItem)
    (hc : ∀ p ∈ m, p.2.url = p.1) :
    ∀ p ∈ dedupeStep pd m it, p.2.url = p.1 := by
  cases hl : mapLookup m it.url with
  | none =>
    simp only [dedupeStep, hl]
    exact mapSet_pairs m it.url it rfl hc
  | some org =>
    simp only [dedupeStep, hl]
    split
    · exact mapSet_pairs m it.url it rfl hc
    · exact hc

theorem dedupe_fold_inv (pd : JSStr → Option Int) (l : List NormalizedItem)
    (m : List (Option JSStr × NormalizedItem))
    (hk : (m.map (·.1)).Nodup) (hc : ∀ p ∈ m, p.2.url = p.1) :
    ((l.foldl (dedupeStep pd) m).map (·.1)).Nodup ∧
      ∀ p ∈ l.foldl (dedupeStep pd) m, p.2.url = p.1 := by
  induction l generalizing m with
  | nil => exact ⟨hk, hc⟩
  | cons n rest ih =>
    rw [List.foldl_cons]
    exact ih _ (dedupeStep_keys_nodup pd m n hk) (dedupeStep_pairs pd m n hc)

theorem dedupe_fold_mem (pd : JSStr → Option Int) (l : List NormalizedItem)
    (m : List (Option JSStr × NormalizedItem)) (u : Option JSStr) :
    u ∈ ((l.foldl (dedupeStep pd) m).map (·.1))
      ↔ u ∈ m.map (·.1) ∨ ∃ n ∈ l, n.url = u := by
  induction l generalizing m with
  | nil => simp
  | cons n rest ih =>
    rw [List.foldl_cons, ih]
    constructor
    · rintro (h | h)
      · rw [dedupeStep_keys] at h
        by_cases hm : n.url ∈ m.map (·.1)
        · rw [if_pos hm] at h
          exact Or.inl h
        · rw [if_neg hm] at h
          rcases List.mem_append.mp h with h2 | h2
          · exact Or.inl h2
          · simp only [List.mem_singleton] at h2
            exact Or.inr ⟨n, by simp, h2.symm⟩
      · obtain ⟨x, hx, hxu⟩ := h
        exact Or.inr ⟨x, List.mem_cons_of_mem _ hx, hxu⟩
    · rintro (h | ⟨x, hx, hxu⟩)
      · left
        rw [dedupeStep_keys]
        split
        · exact h
        · exact List.mem_append_left _ h
      · rcases List.mem_cons.mp hx with rfl | hx2
        · left
          rw [dedupeStep_keys]
          split
          · rename_i hmem
            exact hxu ▸ hmem
          · exact hxu ▸ List.mem_append_right _ (by simp)
        · exact Or.inr ⟨x, hx2, hxu⟩

theorem countP_values_eq (m : List (Option JSStr × NormalizedItem)) (u : Option JSStr)
    (hc : ∀ p ∈ m, p.2.url = p.1) :
    ((m.map (·.2)).countP fun n => decide (n.url = u))
      = ((m.map (·.1)).countP fun k => decide (k = u)) := by
  induction m with
  | nil => rfl
  | cons p rest ih =>
    rcases p with ⟨k, v⟩
    have hv : v.url = k := hc (k, v) (by simp)
    rw [List.map_cons, List.map_cons, List.countP_cons, List.countP_cons,
      ih (fun q hq => hc q (List.mem_cons_of_mem _ hq))]
    simp [hv]

theorem countP_keys_nodup (ks : List (Option JSStr)) (u : Option JSStr)
    (hk : ks.Nodup) :
    (ks.countP fun k => decide (k = u)) = if u ∈ ks then 1 else 0 := by
  induction ks with
  | nil => simp
  | cons k rest ih =>
    rw [List.countP_cons]
    rcases List.nodup_cons.mp hk with ⟨hkmem, hrest⟩
    by_cases h : k = u
    · subst h
      rw [ih hrest, if_neg hkmem]
      simp
    · rw [ih hrest]
      simp [h, Ne.symm h]

/-- C2: deduplication outputs exactly one item per distinct canonical URL
(counting one for every URL present in the input, zero otherwise); when two
items share a URL the survivor is the one with the greater-or-equal parsed
published timestamp, a tie going to the later-seen item; and an unparseable
published timestamp compares as epoch zero. -/
theorem dedupe_spec (pd : JSStr → Option Int) (items : List NormalizedItem) :
    (∀ u : Option JSStr,
        ((dedupe pd items).countP fun n => decide (n.url = u))
          = if items.any (fun n => decide (n.url = u)) then 1 else 0) ∧
    (∀ a b : NormalizedItem, a.url = b.url →
        dedupe pd [a, b]
          = [if parseOr0 pd a.published ≤ parseOr0 pd b.published then b else a]) ∧
    (∀ a b : NormalizedItem, a.url = b.url →
        parseOr0 pd a.published = parseOr0 pd b.published →
        dedupe pd [a, b] = [b]) ∧
    (∀ s : JSStr, pd s = none → parseOr0 pd s = 0) := by
  refine ⟨?_, ?_, ?_, ?_⟩
  · intro u
    obtain ⟨hk, hc⟩ := dedupe_fold_inv pd items [] (by simp) (by simp)
    rw [dedupe, countP_values_eq _ u hc, countP_keys_nodup _ u hk]
    have hmem := dedupe_fold_mem pd items [] u
    simp only [List.map_nil, List.not_mem_nil, false_or] at hmem
    by_cases h : ∃ n ∈ items, n.url = u
    · have hany : (items.any fun n => decide (n.url = u)) = true := by
        rw [List.any_eq_true]
        obtain ⟨n, hn, hnu⟩ := h
        exact ⟨n, hn, by simpa using hnu⟩
      rw [if_pos (hmem.mpr h), if_pos hany]
    · have hany : ¬ (items.any fun n => decide (n.url = u)) = true := by
        rw [List.any_eq_true]
        rintro ⟨n, hn, hnu⟩
        exact h ⟨n, hn, by simpa using hnu⟩
      rw [if_neg (fun hin => h (hmem.mp hin)), if_neg hany]
  · intro a b hab
    by_cases hle : parseOr0 pd a.published ≤ parseOr0 pd b.published
    · simp [dedupe, dedupeStep, mapLookup, mapSet, hab, hle]
    · simp [dedupe, dedupeStep, mapLookup, mapSet, hab, hle]
  · intro a b hab heq
    simp [dedupe, dedupeStep, mapLookup, mapSet, hab, heq]
  · intro s hs
    simp [parseOr0, hs]

/-- Witness for C2: two concrete items sharing a URL, published at times 1
and 2; the later-published, later-seen item survives. -/
theorem dedupe_spec_witness : dedupe wPd [wDupA, wDupB] = [wDupB] := by
  have h := (dedupe_spec wPd [wDupA, wDupB]).2.1 wDupA wDupB rfl
  rw [if_pos (by decide)] at h
  exact h
